import Mathlib

-- Verification development for the syncserial sigrok decoder
-- (src/syncserial/pd.py).  The decoder consumes clock-edge events and
-- assembles sampled data bits into words, emitting bit and word
-- annotation spans.  The definitions below are a shallow embedding of
-- Decoder.decode (lines 125-231) and its helpers; Python integers are
-- modelled by Nat (all quantities involved are non-negative counters and
-- sample indices), and math.ceil of the float division
-- bitlensum / bitlencount is modelled by the exact integer ceiling,
-- which agrees with the Python expression for all magnitudes below 2^53.

namespace SyncSerial

-- Run configuration, read once at the top of Decoder.decode:
--   clock_edge = self.options['clock_edge']   (values 'rising' / 'falling')
--   wordlen    = self.options['bits']
--   lsbfirst   = self.options['bitorder'] == 'lsb first'
structure Config where
  risingEdge : Bool
  wordlen : Nat
  lsbfirst : Bool
deriving DecidableEq

-- One clock-edge event as returned by self.wait([{0: 'r'}, {0: 'f'}]):
-- the sample index (self.samplenum) plus the clock and data pin levels.
structure Edge where
  samplenum : Nat
  clk : Nat
  sda : Nat
deriving DecidableEq

-- The mutable decoder state initialised by Decoder.reset (lines 89-103).
-- Fields irrelevant to decode (samplerate, pdu_start, pdu_bits, data_bits,
-- bitwidth, mindelta) are omitted: decode never reads them.
structure State where
  lastsamplenum : Nat
  bitstartsample : Nat
  lastbit : Nat
  bitlencount : Nat
  bitlensum : Nat
  nibblecount : Nat
  nibble : Nat
  nibblestartsample : Nat
deriving DecidableEq

-- reset() sets every field to 0 (None fields are unused by decode).
def initState : State := ⟨0, 0, 0, 0, 0, 0, 0, 0⟩

-- The four output handles registered in Decoder.start (lines 109-114):
-- OUTPUT_PYTHON, OUTPUT_ANN, OUTPUT_BINARY, OUTPUT_META.
inductive OutputKind
  | annOut
  | pythonOut
  | binaryOut
  | metaOut
deriving DecidableEq

-- One call to self.put(ss, es, output, [cls, text]).  ss/es are the span,
-- out is the output handle, cls the class (0 = bit, 1 = word) and
-- value the number rendered in the text (str(lastbit) resp. the hex of
-- nibble).  nbits and trunc are ghost trace instrumentation recorded at
-- emission time: nbits is the number of bits folded into an emitted word
-- (0 on bit emissions) and trunc is the value of the local variable
-- `truncate` at a mid-stream word flush (false elsewhere).
structure Emission where
  ss : Nat
  es : Nat
  out : OutputKind
  cls : Nat
  value : Nat
  nbits : Nat
  trunc : Bool
deriving DecidableEq

-- Exact ceiling division, modelling ceil(a / b) at lines 142 and 152.
def ceilDiv (a b : Nat) : Nat := (a + b - 1) / b

-- average = 0 if self.bitlencount == 0 else ceil(self.bitlensum / self.bitlencount)
def runningAverage (st : State) : Nat :=
  if st.bitlencount = 0 then 0 else ceilDiv st.bitlensum st.bitlencount

-- Lines 137-140 and 165-168: fold the pending bit into the word
-- accumulator.  'lsb first' shifts left and ORs in at position 0;
-- 'msb first' ORs the bit in at position nibblecount.
def foldBit (lsbfirst : Bool) (nibble nibblecount lastbit : Nat) : Nat :=
  if lsbfirst then (nibble <<< 1) ||| lastbit
  else nibble ||| (lastbit <<< nibblecount)

-- Lines 153-159: the `truncate` local.  The raw bit length is
-- s - bitstartsample; truncation needs bitlencount > 3 and
-- bitlen > average * 4.
def truncOf (st : State) (s : Nat) : Bool :=
  if 3 < st.bitlencount then
    if runningAverage st * 4 < s - st.bitstartsample then true else false
  else false

-- The annotation end `es`: the current sample, capped at
-- bitstartsample + average * 4 when truncating (line 156).
def bitEndOf (st : State) (s : Nat) : Nat :=
  if truncOf st s then st.bitstartsample + runningAverage st * 4 else s

-- The (possibly capped) `bitlen` local after lines 150/157.
def cappedLenOf (st : State) (s : Nat) : Nat :=
  if truncOf st s then runningAverage st * 4 else s - st.bitstartsample

-- Line 170-171: nibblestartsample is set to bitstartsample if still 0.
def nssOf (st : State) : Nat :=
  if st.nibblestartsample = 0 then st.bitstartsample else st.nibblestartsample

-- Line 173: `if self.nibblecount >= wordlen or truncate:` where
-- nibblecount has already been incremented (line 169).
def flushNow (cfg : Config) (st : State) (s : Nat) : Bool :=
  decide (cfg.wordlen ≤ st.nibblecount + 1) || truncOf st s

-- Line 162: the bit annotation put for the pending bit.
def bitEmOf (st : State) (s : Nat) : Emission :=
  { ss := st.bitstartsample, es := bitEndOf st s, out := OutputKind.annOut,
    cls := 0, value := st.lastbit, nbits := 0, trunc := false }

-- Line 174: the word annotation put at a mid-stream flush.
def wordEmOf (cfg : Config) (st : State) (s : Nat) : Emission :=
  { ss := nssOf st, es := bitEndOf st s, out := OutputKind.annOut, cls := 1,
    value := foldBit cfg.lsbfirst st.nibble st.nibblecount st.lastbit,
    nbits := st.nibblecount + 1, trunc := truncOf st s }

-- Lines 149-183: the body of `if self.bitlencount > 0:` at an active
-- edge with self.samplenum = s.  Emits the pending bit's annotation,
-- folds the bit into the nibble, flushes the word when full or
-- truncated, and updates the running-length estimator when
-- bitstartsample != 0.
def finalizePending (cfg : Config) (st : State) (s : Nat) : State × List Emission :=
  let ems := if flushNow cfg st s then [bitEmOf st s, wordEmOf cfg st s]
             else [bitEmOf st s]
  let st1 := if flushNow cfg st s then
      { st with nibble := 0, nibblecount := 0, nibblestartsample := 0 }
    else
      { st with nibble := foldBit cfg.lsbfirst st.nibble st.nibblecount st.lastbit,
                nibblecount := st.nibblecount + 1, nibblestartsample := nssOf st }
  let st2 := if st.bitstartsample ≠ 0 then
      { st1 with bitlencount := st1.bitlencount + 1,
                 bitlensum := st1.bitlensum + cappedLenOf st s }
    else st1
  (st2, ems)

-- Lines 185-189: unconditional tail of the active-edge branch.
def startBit (st : State) (s d : Nat) : State :=
  { st with bitstartsample := s, lastbit := d,
            bitlencount := st.bitlencount + 1, lastsamplenum := s }

-- Lines 148-189: one active edge at sample s with data level d.
def activeStep (cfg : Config) (st : State) (s d : Nat) : State × List Emission :=
  let r := if 0 < st.bitlencount then finalizePending cfg st s else (st, [])
  (startBit r.1 s d, r.2)

-- Line 147: (clock_edge == 'rising' and clk == 1) or
--           (clock_edge == 'falling' and clk == 0)
def isActive (cfg : Config) (clk : Nat) : Bool :=
  (cfg.risingEdge && clk == 1) || (!cfg.risingEdge && clk == 0)

-- Lines 147-193: dispatch one edge event.  Inactive edges only
-- initialise the start references while lastsamplenum == 0 (lines
-- 191-193); the long commented-out block below line 194 is dead code.
def processEdge (cfg : Config) (st : State) (ev : Edge) : State × List Emission :=
  if isActive cfg ev.clk then activeStep cfg st ev.samplenum ev.sda
  else if st.lastsamplenum = 0 then
    ({ st with bitstartsample := ev.samplenum, nibblestartsample := ev.samplenum }, [])
  else (st, [])

-- The decode loop over a finite list of edge events, collecting the
-- emitted annotation spans in order.
def runEdges (cfg : Config) (st : State) (evs : List Edge) : State × List Emission :=
  match evs with
  | [] => (st, [])
  | ev :: rest =>
      let r := processEdge cfg st ev
      let r2 := runEdges cfg r.1 rest
      (r2.1, r.2 ++ r2.2)

def stateAfter (cfg : Config) (evs : List Edge) : State :=
  (runEdges cfg initState evs).1

-- Lines 136-145: the flush performed inside the `except:` handler when
-- the sample source is exhausted and nibblecount > 0.  (The local
-- `bitlen` computed at line 141 is never used.)
def flushEms (cfg : Config) (st : State) : List Emission :=
  if 0 < st.nibblecount then
    [{ ss := st.bitstartsample, es := st.bitstartsample + runningAverage st,
       out := OutputKind.annOut, cls := 0, value := st.lastbit,
       nbits := 0, trunc := false },
     { ss := st.nibblestartsample, es := st.bitstartsample + runningAverage st,
       out := OutputKind.annOut, cls := 1,
       value := foldBit cfg.lsbfirst st.nibble st.nibblecount st.lastbit,
       nbits := st.nibblecount + 1, trunc := false }]
  else []

-- A complete run: process all edges, then the end-of-stream flush.
def decodeEms (cfg : Config) (evs : List Edge) : List Emission :=
  (runEdges cfg initState evs).2 ++ flushEms cfg (stateAfter cfg evs)

-- One iteration of the `while True:` loop after the sample source is
-- exhausted (lines 130-193).  self.wait raises, the bare `except:`
-- catches it; when nibblecount > 0 the final flush is emitted and
-- EOFError is raised, terminating decode.  Otherwise control FALLS
-- THROUGH past the handler and the loop body re-runs with the stale
-- clk/sda/samplenum of the last received edge, after which the loop
-- repeats and wait raises again.
inductive ExhaustOutcome
  | terminated (ems : List Emission)
  | fellThrough (st : State) (ems : List Emission)
deriving DecidableEq

def exhaustIter (cfg : Config) (st : State) (stale : Edge) : ExhaustOutcome :=
  if 0 < st.nibblecount then ExhaustOutcome.terminated (flushEms cfg st)
  else
    let r := processEdge cfg st stale
    ExhaustOutcome.fellThrough r.1 r.2

-- Folding a list of received bits into an (initially empty) word using
-- the decoder's per-bit fold, tracking the running nibblecount exactly
-- as lines 165-169 do.
def packBits (lsbfirst : Bool) (bits : List Nat) : Nat :=
  (bits.foldl (fun p b => (foldBit lsbfirst p.1 p.2 b, p.2 + 1)) ((0 : Nat), (0 : Nat))).1

-- N active edges (clk = 1, data 0) spaced L samples apart starting at
-- sample a: N-1 completed equal-length bit periods of length L.
def eqEdges (a L N : Nat) : List Edge :=
  (List.range N).map (fun i => { samplenum := a + i * L, clk := 1, sda := 0 })

-- Trace counters used to express emission ordering: the number of bit
-- annotation spans in a trace, and the total number of bits folded into
-- the word annotation spans of a trace.
def bitCnt (l : List Emission) : Nat := l.countP (fun e => e.cls == 0)

def wordBits (l : List Emission) : Nat :=
  (l.map (fun e => if e.cls == 1 then e.nbits else 0)).sum

-- Field characterisations of finalizePending.

lemma finalizePending_bitstartsample (cfg : Config) (st : State) (s : Nat) :
    ((finalizePending cfg st s).1).bitstartsample = st.bitstartsample := by
  unfold finalizePending
  split_ifs <;> rfl

lemma finalizePending_lastbit (cfg : Config) (st : State) (s : Nat) :
    ((finalizePending cfg st s).1).lastbit = st.lastbit := by
  unfold finalizePending
  split_ifs <;> rfl

lemma finalizePending_lastsamplenum (cfg : Config) (st : State) (s : Nat) :
    ((finalizePending cfg st s).1).lastsamplenum = st.lastsamplenum := by
  unfold finalizePending
  split_ifs <;> rfl

lemma finalizePending_bitlencount (cfg : Config) (st : State) (s : Nat) :
    ((finalizePending cfg st s).1).bitlencount =
      if st.bitstartsample ≠ 0 then st.bitlencount + 1 else st.bitlencount := by
  unfold finalizePending
  split_ifs <;> rfl

lemma finalizePending_bitlensum (cfg : Config) (st : State) (s : Nat) :
    ((finalizePending cfg st s).1).bitlensum =
      if st.bitstartsample ≠ 0 then st.bitlensum + cappedLenOf st s
      else st.bitlensum := by
  unfold finalizePending
  split_ifs <;> rfl

lemma finalizePending_nibblecount (cfg : Config) (st : State) (s : Nat) :
    ((finalizePending cfg st s).1).nibblecount =
      if flushNow cfg st s then 0 else st.nibblecount + 1 := by
  unfold finalizePending
  split_ifs <;> rfl

lemma finalizePending_nibble (cfg : Config) (st : State) (s : Nat) :
    ((finalizePending cfg st s).1).nibble =
      if flushNow cfg st s then 0
      else foldBit cfg.lsbfirst st.nibble st.nibblecount st.lastbit := by
  unfold finalizePending
  split_ifs <;> rfl

lemma finalizePending_nibblestartsample (cfg : Config) (st : State) (s : Nat) :
    ((finalizePending cfg st s).1).nibblestartsample =
      if flushNow cfg st s then 0 else nssOf st := by
  unfold finalizePending
  split_ifs <;> rfl

lemma finalizePending_snd (cfg : Config) (st : State) (s : Nat) :
    (finalizePending cfg st s).2 =
      if flushNow cfg st s then [bitEmOf st s, wordEmOf cfg st s]
      else [bitEmOf st s] := by
  unfold finalizePending
  split_ifs <;> rfl

-- Field characterisations of activeStep.

lemma activeStep_fst (cfg : Config) (st : State) (s d : Nat) :
    (activeStep cfg st s d).1 =
      startBit (if 0 < st.bitlencount then (finalizePending cfg st s).1 else st) s d := by
  unfold activeStep
  split <;> rfl

lemma activeStep_snd (cfg : Config) (st : State) (s d : Nat) :
    (activeStep cfg st s d).2 =
      if 0 < st.bitlencount then (finalizePending cfg st s).2 else [] := by
  unfold activeStep
  split <;> rfl

/-- Claim C2 (corrected): packing the received bits [1,0,1,0,0,1,1,0] with
the OR-into-position-nibblecount pattern (the fold the code runs for the
option labelled "1st bit received is a high-order bit", i.e. not
lsbfirst) yields 0b01100101, while the shift-left-and-OR pattern (the
lsbfirst fold, labelled low-order) yields 0b10100110.  The two concrete
values asserted by the claim are attached to the opposite patterns. -/
theorem packBits_bitorder_values :
    packBits false [1, 0, 1, 0, 0, 1, 1, 0] = 0b01100101 ∧
    packBits true [1, 0, 1, 0, 0, 1, 1, 0] = 0b10100110 := by
  decide

/-- Claim C2 counterexample: the claim as stated — OR-into-position
("first-received becomes high-order") yields 0b10100110 and shift-left
("first-received becomes low-order") yields 0b01100101 — is false on the
bit list [1,0,1,0,0,1,1,0]: both equalities fail. -/
theorem packBits_claim_counterexample :
    ¬(packBits false [1, 0, 1, 0, 0, 1, 1, 0] = 0b10100110 ∧
      packBits true [1, 0, 1, 0, 0, 1, 1, 0] = 0b01100101) := by
  decide

/-- Claim C4: at an active edge finalizing a pending bit at sample s, the
truncate flag is set iff bitlencount > 3 and the new bit length
s - bitstartsample strictly exceeds 4 times the running average; a length
of exactly 4 times the average is never truncated, no truncation happens
with bitlencount <= 3, and the emitted bit annotation end is capped at
bitstartsample + 4 * average exactly when the flag is set. -/
theorem active_edge_truncation (st : State) (s : Nat) :
    (truncOf st s = true ↔
        3 < st.bitlencount ∧ 4 * runningAverage st < s - st.bitstartsample)
    ∧ (st.bitlencount ≤ 3 → truncOf st s = false)
    ∧ (s - st.bitstartsample = 4 * runningAverage st → truncOf st s = false)
    ∧ (truncOf st s = true →
        bitEndOf st s = st.bitstartsample + 4 * runningAverage st)
    ∧ (truncOf st s = false → bitEndOf st s = s) := by
  unfold bitEndOf truncOf
  split_ifs with h1 h2 <;> refine ⟨?_, ?_, ?_, ?_, ?_⟩ <;> simp_all <;> omega

/-- Claim C4 witness: a state with 4 accumulated periods (average 1) and
a new length of 99 > 4 is truncated; a state with only 3 accumulated
periods is not, whatever the length. -/
theorem active_edge_truncation_witness :
    truncOf ⟨0, 1, 0, 4, 4, 0, 0, 0⟩ 100 = true ∧
    truncOf ⟨0, 1, 0, 3, 4, 0, 0, 0⟩ 100 = false :=
  ⟨(active_edge_truncation ⟨0, 1, 0, 4, 4, 0, 0, 0⟩ 100).1.mpr (by decide),
   (active_edge_truncation ⟨0, 1, 0, 3, 4, 0, 0, 0⟩ 100).2.1 (by decide)⟩

/-- Claim C5: on an active edge, bitlencount grows by exactly 2 when a
pending bit with bitstartsample ≠ 0 is finalized (one increment in the
estimator update, one in the unconditional start-next-bit tail), and by
exactly 1 otherwise; bitlensum grows by the possibly-capped bit length
exactly in the former case and is unchanged otherwise. -/
theorem active_edge_counters (cfg : Config) (st : State) (s d : Nat) :
    (0 < st.bitlencount ∧ st.bitstartsample ≠ 0 →
        (activeStep cfg st s d).1.bitlencount = st.bitlencount + 2 ∧
        (activeStep cfg st s d).1.bitlensum = st.bitlensum + cappedLenOf st s)
    ∧ (¬(0 < st.bitlencount ∧ st.bitstartsample ≠ 0) →
        (activeStep cfg st s d).1.bitlencount = st.bitlencount + 1 ∧
        (activeStep cfg st s d).1.bitlensum = st.bitlensum) := by
  rw [activeStep_fst]
  unfold startBit
  by_cases hp : 0 < st.bitlencount
  · rw [if_pos hp]
    constructor
    · rintro ⟨-, hbs⟩
      simp [finalizePending_bitlencount, finalizePending_bitlensum, hbs]
    · intro h
      have hbs : st.bitstartsample = 0 := by tauto
      simp [finalizePending_bitlencount, finalizePending_bitlensum, hbs]
  · rw [if_neg hp]
    exact ⟨fun h => absurd h.1 hp, fun _ => ⟨rfl, rfl⟩⟩

/-- Claim C5 witness: finalizing a pending bit (bitlencount = 1) with
bitstartsample = 5 ≠ 0 at sample 9 adds 2 to bitlencount and the capped
length to bitlensum. -/
theorem active_edge_counters_witness :
    (activeStep ⟨true, 8, false⟩ ⟨0, 5, 1, 1, 0, 0, 0, 0⟩ 9 0).1.bitlencount = 1 + 2 ∧
    (activeStep ⟨true, 8, false⟩ ⟨0, 5, 1, 1, 0, 0, 0, 0⟩ 9 0).1.bitlensum =
      0 + cappedLenOf ⟨0, 5, 1, 1, 0, 0, 0, 0⟩ 9 :=
  (active_edge_counters ⟨true, 8, false⟩ ⟨0, 5, 1, 1, 0, 0, 0, 0⟩ 9 0).1
    ⟨by decide, by decide⟩

/-- Claim C6: if the sample source is exhausted while nibblecount > 0,
the decoder terminates after emitting exactly one final bit annotation
spanning [bitstartsample, bitstartsample + average) showing lastbit and
exactly one final word annotation spanning
[nibblestartsample, bitstartsample + average) whose value is lastbit
folded once more into nibble by the configured bit-order rule. -/
theorem exhaust_flush_once (cfg : Config) (st : State) (stale : Edge)
    (h : 0 < st.nibblecount) :
    exhaustIter cfg st stale = ExhaustOutcome.terminated
      [{ ss := st.bitstartsample, es := st.bitstartsample + runningAverage st,
         out := OutputKind.annOut, cls := 0, value := st.lastbit,
         nbits := 0, trunc := false },
       { ss := st.nibblestartsample, es := st.bitstartsample + runningAverage st,
         out := OutputKind.annOut, cls := 1,
         value := foldBit cfg.lsbfirst st.nibble st.nibblecount st.lastbit,
         nbits := st.nibblecount + 1, trunc := false }] := by
  unfold exhaustIter flushEms
  rw [if_pos h, if_pos h]

/-- Claim C6 witness: exhaustion with one pending folded bit
(nibblecount = 1, nibble = 1, lastbit = 1, msb-first) emits the final bit
and word annotations with word value 1 ||| (1 <<< 1) = 3. -/
theorem exhaust_flush_once_witness :
    exhaustIter ⟨true, 8, false⟩ ⟨0, 5, 1, 0, 0, 1, 1, 5⟩ ⟨9, 1, 0⟩ =
      ExhaustOutcome.terminated
        [⟨5, 5, OutputKind.annOut, 0, 1, 0, false⟩,
         ⟨5, 5, OutputKind.annOut, 1, 3, 2, false⟩] := by
  rw [exhaust_flush_once ⟨true, 8, false⟩ ⟨0, 5, 1, 0, 0, 1, 1, 5⟩ ⟨9, 1, 0⟩ (by decide)]
  decide

/-- Claim C3 (code bug): after the single active edge (5, clk 1, data 1)
the word accumulator is empty (nibblecount = 0), so per the claim the
decoder should flush zero times and terminate immediately on exhaustion.
Instead the bare except falls through and the loop body re-runs on the
stale edge: the state mutates (bitlencount goes from 1 to 3, a bit is
folded) and a bit annotation is emitted after exhaustion, and the second
exhaustion signal then performs a flush.  So further processing and one
flush occur even though nibblecount was 0 when exhaustion was
signalled. -/
theorem exhaust_fallthrough_bug :
    (stateAfter ⟨true, 8, false⟩ [⟨5, 1, 1⟩]).nibblecount = 0
    ∧ (stateAfter ⟨true, 8, false⟩ [⟨5, 1, 1⟩]).bitlencount = 1
    ∧ exhaustIter ⟨true, 8, false⟩ (stateAfter ⟨true, 8, false⟩ [⟨5, 1, 1⟩]) ⟨5, 1, 1⟩
        = ExhaustOutcome.fellThrough ⟨5, 5, 1, 3, 0, 1, 1, 5⟩
            [⟨5, 5, OutputKind.annOut, 0, 1, 0, false⟩]
    ∧ exhaustIter ⟨true, 8, false⟩ ⟨5, 5, 1, 3, 0, 1, 1, 5⟩ ⟨5, 1, 1⟩
        = ExhaustOutcome.terminated
            [⟨5, 5, OutputKind.annOut, 0, 1, 0, false⟩,
             ⟨5, 5, OutputKind.annOut, 1, 3, 2, false⟩] := by
  decide

-- Output-kind lemmas for C8: decode only ever puts on the OUTPUT_ANN
-- handle; the putp/putb helpers (OUTPUT_PYTHON, OUTPUT_BINARY) and the
-- OUTPUT_META handle registered in start() are never used by decode.

lemma mem_finalizePending_out (cfg : Config) (st : State) (s : Nat) :
    ∀ e ∈ (finalizePending cfg st s).2, e.out = OutputKind.annOut := by
  rw [finalizePending_snd]
  split_ifs <;> intro e he <;> simp [bitEmOf, wordEmOf] at he
  · rcases he with h | h <;> subst h <;> rfl
  · subst he; rfl

lemma mem_processEdge_out (cfg : Config) (st : State) (ev : Edge) :
    ∀ e ∈ (processEdge cfg st ev).2, e.out = OutputKind.annOut := by
  unfold processEdge
  split_ifs <;> intro e he
  · rw [activeStep_snd] at he
    split_ifs at he
    · exact mem_finalizePending_out cfg st ev.samplenum e he
    · simp at he
  · simp at he
  · simp at he

lemma mem_runEdges_out (cfg : Config) :
    ∀ (evs : List Edge) (st : State),
      ∀ e ∈ (runEdges cfg st evs).2, e.out = OutputKind.annOut := by
  intro evs
  induction evs with
  | nil => intro st e he; simp [runEdges] at he
  | cons ev rest ih =>
      intro st e he
      simp only [runEdges, List.mem_append] at he
      rcases he with h | h
      · exact mem_processEdge_out cfg st ev e h
      · exact ih _ e h

lemma mem_flushEms_out (cfg : Config) (st : State) :
    ∀ e ∈ flushEms cfg st, e.out = OutputKind.annOut := by
  unfold flushEms
  split_ifs <;> intro e he <;> simp at he
  rcases he with h | h <;> subst h <;> rfl

/-- Claim C8: every emission of a complete run goes to the annotation
output; the structured-record (python), binary and bitrate-metadata
outputs receive nothing. -/
theorem only_ann_output (cfg : Config) (evs : List Edge) :
    ∀ e ∈ decodeEms cfg evs, e.out = OutputKind.annOut := by
  intro e he
  rcases List.mem_append.mp he with h | h
  · exact mem_runEdges_out cfg evs initState e h
  · exact mem_flushEms_out cfg (stateAfter cfg evs) e h

-- Arithmetic facts about ceilDiv used for the running-average analysis.

lemma le_mul_ceilDiv (a b : Nat) (h : 0 < b) : a ≤ b * ceilDiv a b := by
  unfold ceilDiv
  have h1 := Nat.div_add_mod (a + b - 1) b
  have h2 := Nat.mod_lt (a + b - 1) h
  omega

lemma le_four_ceilDiv (L n : Nat) (hn : 2 ≤ n) :
    L ≤ 4 * ceilDiv (n * L) (2 * n + 1) := by
  have hpos : 0 < 2 * n + 1 := by omega
  have h1 : n * L ≤ (2 * n + 1) * ceilDiv (n * L) (2 * n + 1) :=
    le_mul_ceilDiv _ _ hpos
  have hL : L * 1 ≤ L * (2 * n) := Nat.mul_le_mul_left L (by omega)
  have h2 : L * (2 * n + 1) ≤ 4 * (n * L) := by
    calc L * (2 * n + 1) = L * (2 * n) + L := by ring
    _ ≤ L * (2 * n) + L * (2 * n) := Nat.add_le_add_left (by simpa using hL) _
    _ = 4 * (n * L) := by ring
  have h4 : L * (2 * n + 1) ≤ (4 * ceilDiv (n * L) (2 * n + 1)) * (2 * n + 1) := by
    calc L * (2 * n + 1) ≤ 4 * (n * L) := h2
    _ ≤ 4 * ((2 * n + 1) * ceilDiv (n * L) (2 * n + 1)) := Nat.mul_le_mul_left _ h1
    _ = (4 * ceilDiv (n * L) (2 * n + 1)) * (2 * n + 1) := by ring
  exact Nat.le_of_mul_le_mul_right h4 hpos

lemma ceilDiv_eqrun (L n : Nat) (h : L ≤ n) :
    ceilDiv ((n + 1) * L) (2 * n + 3) = (L + 1) / 2 := by
  unfold ceilDiv
  rcases Nat.even_or_odd L with ⟨m, hm⟩ | ⟨m, hm⟩
  · subst hm
    have ht : (m + m + 1) / 2 = m := by omega
    rw [ht]
    apply Nat.div_eq_of_lt_le
    · have e1 : m * (2 * n + 3) = 2 * (m * n) + 3 * m := by ring
      have e2 : (n + 1) * (m + m) = 2 * (m * n) + 2 * m := by ring
      rw [e1, e2]
      generalize m * n = p
      omega
    · have e2 : (n + 1) * (m + m) = 2 * (m * n) + 2 * m := by ring
      have e3 : (m + 1) * (2 * n + 3) = 2 * (m * n) + 3 * m + 2 * n + 3 := by ring
      rw [e2, e3]
      generalize m * n = p
      omega
  · subst hm
    have ht : (2 * m + 1 + 1) / 2 = m + 1 := by omega
    rw [ht]
    apply Nat.div_eq_of_lt_le
    · have e1 : (m + 1) * (2 * n + 3) = 2 * (m * n) + 3 * m + 2 * n + 3 := by ring
      have e2 : (n + 1) * (2 * m + 1) = 2 * (m * n) + 2 * m + n + 1 := by ring
      rw [e1, e2]
      generalize m * n = p
      omega
    · have e2 : (n + 1) * (2 * m + 1) = 2 * (m * n) + 2 * m + n + 1 := by ring
      have e3 : (m + 1 + 1) * (2 * n + 3) = 2 * (m * n) + 3 * m + 4 * n + 6 := by ring
      rw [e2, e3]
      generalize m * n = p
      omega

-- Running a concatenation of edge lists composes state threading and
-- concatenates the traces.

lemma runEdges_append (cfg : Config) (st : State) (l1 l2 : List Edge) :
    runEdges cfg st (l1 ++ l2) =
      ((runEdges cfg (runEdges cfg st l1).1 l2).1,
       (runEdges cfg st l1).2 ++ (runEdges cfg (runEdges cfg st l1).1 l2).2) := by
  induction l1 generalizing st with
  | nil => simp [runEdges]
  | cons ev rest ih => simp [runEdges, ih]

lemma eqEdges_succ (a L n : Nat) :
    eqEdges a L (n + 1) = eqEdges a L n ++ [⟨a + n * L, 1, 0⟩] := by
  unfold eqEdges
  rw [List.range_succ, List.map_append]
  rfl

-- Closed form of the estimator state along a run of equal bit periods:
-- after n+1 active edges spaced L apart starting at sample a >= 1,
-- bitlencount = 2n+1 (two increments per completed period plus the
-- initial one), bitlensum = n*L and bitstartsample = a + n*L.

lemma eqRun_state (w : Nat) (ord : Bool) (a L : Nat) (ha : 1 ≤ a) :
    ∀ n,
      (stateAfter ⟨true, w, ord⟩ (eqEdges a L (n + 1))).bitlencount = 2 * n + 1
      ∧ (stateAfter ⟨true, w, ord⟩ (eqEdges a L (n + 1))).bitlensum = n * L
      ∧ (stateAfter ⟨true, w, ord⟩ (eqEdges a L (n + 1))).bitstartsample = a + n * L := by
  intro n
  induction n with
  | zero =>
      refine ⟨?_, ?_, ?_⟩ <;>
        simp [stateAfter, eqEdges, runEdges, processEdge, isActive, activeStep,
              startBit, initState]
  | succ n ih =>
      obtain ⟨ihc, ihs, ihb⟩ := ih
      have hs : stateAfter ⟨true, w, ord⟩ (eqEdges a L (n + 1 + 1)) =
          (processEdge ⟨true, w, ord⟩
            (stateAfter ⟨true, w, ord⟩ (eqEdges a L (n + 1)))
            ⟨a + (n + 1) * L, 1, 0⟩).1 := by
        rw [eqEdges_succ a L (n + 1)]
        unfold stateAfter
        rw [runEdges_append]
        simp [runEdges]
      set st := stateAfter ⟨true, w, ord⟩ (eqEdges a L (n + 1)) with hst
      have hact : processEdge ⟨true, w, ord⟩ st ⟨a + (n + 1) * L, 1, 0⟩ =
          activeStep ⟨true, w, ord⟩ st (a + (n + 1) * L) 0 := by
        unfold processEdge isActive
        simp
      have hpend : 0 < st.bitlencount := by omega
      have hlen : a + (n + 1) * L - st.bitstartsample = L := by
        rw [ihb]
        have e : (n + 1) * L = n * L + L := by ring
        rw [e]
        generalize n * L = p
        omega
      have htr : truncOf st (a + (n + 1) * L) = false := by
        unfold truncOf
        split_ifs with h1 h2
        · exfalso
          have hn2 : 2 ≤ n := by omega
          have havg : runningAverage st = ceilDiv (n * L) (2 * n + 1) := by
            unfold runningAverage
            rw [if_neg (by omega), ihs, ihc]
          rw [havg, hlen] at h2
          have := le_four_ceilDiv L n hn2
          omega
        · rfl
        · rfl
      have hcap : cappedLenOf st (a + (n + 1) * L) = L := by
        unfold cappedLenOf
        rw [htr]
        simpa using hlen
      have hbs0 : st.bitstartsample ≠ 0 := by
        rw [ihb]; omega
      rw [hs, hact, activeStep_fst, if_pos hpend]
      unfold startBit
      refine ⟨?_, ?_, ?_⟩
      · simp [finalizePending_bitlencount, hbs0, ihc]
        ring
      · simp [finalizePending_bitlensum, hbs0, ihs, hcap]
        ring
      · simp

-- The limit of the running average on equal periods of length L: from
-- the (L+2)-nd edge on it equals ceil(L / 2) = (L+1)/2, not L.

lemma eqRun_average (w : Nat) (ord : Bool) (a L n : Nat)
    (ha : 1 ≤ a) (hn : L ≤ n) :
    runningAverage (stateAfter ⟨true, w, ord⟩ (eqEdges a L (n + 2))) = (L + 1) / 2 := by
  obtain ⟨hc, hsum, -⟩ := eqRun_state w ord a L ha (n + 1)
  unfold runningAverage
  rw [hc, hsum, if_neg (by omega)]
  have e : 2 * (n + 1) + 1 = 2 * n + 3 := by ring
  rw [e]
  exact ceilDiv_eqrun L n hn

/-- Claim C1 (corrected): feeding N active edges spaced L samples apart
(N-1 completed equal bit periods of length L, first edge at sample
a >= 1), the running average ceil(bitlensum / bitlencount) does NOT
converge to L: because bitlencount is incremented twice per completed
period, for every N >= L + 2 the average computed at the next active edge
equals ceil(L / 2) = (L + 1) / 2. -/
theorem eq_periods_average_limit (w : Nat) (ord : Bool) (a L N : Nat)
    (ha : 1 ≤ a) (hN : L + 2 ≤ N) :
    runningAverage (stateAfter ⟨true, w, ord⟩ (eqEdges a L N)) = (L + 1) / 2 := by
  obtain ⟨n, rfl⟩ : ∃ n, N = n + 2 := ⟨N - 2, by omega⟩
  exact eqRun_average w ord a L n ha (by omega)

/-- Claim C1 witness: after 12 equal periods of length 10 starting at
sample 1, the running average is (10+1)/2 = 5. -/
theorem eq_periods_average_limit_witness :
    runningAverage (stateAfter ⟨true, 8, false⟩ (eqEdges 1 10 12)) = 5 := by
  have h := eq_periods_average_limit 8 false 1 10 12 (by decide) (by decide)
  simpa using h

/-- Claim C1 counterexample: for equal bit periods of length L = 10
(edges at 1, 11, 21, ...) the running average does not converge to 10:
there is no point of the run after which it equals 10 — it is 5 from the
12th edge on. -/
theorem eq_periods_average_no_convergence :
    ¬∃ N0, ∀ N, N0 ≤ N →
        runningAverage (stateAfter ⟨true, 8, false⟩ (eqEdges 1 10 N)) = 10 := by
  rintro ⟨N0, h⟩
  have h1 := h (N0 + 12) (by omega)
  have h2 : runningAverage (stateAfter ⟨true, 8, false⟩ (eqEdges 1 10 (N0 + 12))) = 5 := by
    have e : N0 + 12 = (N0 + 10) + 2 := by omega
    rw [e]
    have := eqRun_average 8 false 1 10 (N0 + 10) (by decide) (by omega)
    simpa using this
  omega

-- Invariant for C7: between steps, nibblecount stays below wordlen
-- (for a positive word width), so a flushed word holds nibblecount + 1
-- bits, between 1 and wordlen.

lemma processEdge_nc_lt (cfg : Config) (st : State) (ev : Edge)
    (hw : 0 < cfg.wordlen) (h : st.nibblecount < cfg.wordlen) :
    ((processEdge cfg st ev).1).nibblecount < cfg.wordlen := by
  unfold processEdge
  split_ifs with h1 h2
  · rw [activeStep_fst]
    unfold startBit
    dsimp only
    split_ifs with hp
    · rw [finalizePending_nibblecount]
      split_ifs with hf
      · exact hw
      · simp only [flushNow, Bool.or_eq_true, decide_eq_true_eq] at hf
        push_neg at hf
        omega
    · exact h
  · exact h
  · exact h

lemma mem_processEdge_word (cfg : Config) (st : State) (ev : Edge)
    (h : st.nibblecount < cfg.wordlen) :
    ∀ e ∈ (processEdge cfg st ev).2, e.cls = 1 →
      (1 ≤ e.nbits ∧ e.nbits ≤ cfg.wordlen) ∧
      (e.trunc = false → e.nbits = cfg.wordlen) := by
  unfold processEdge
  split_ifs with h1 h2 <;> intro e he hcls
  · rw [activeStep_snd] at he
    split_ifs at he with hp
    · rw [finalizePending_snd] at he
      split_ifs at he with hf
      · simp only [List.mem_cons, List.mem_singleton, List.not_mem_nil, or_false] at he
        rcases he with hE | hE
        · subst hE; simp [bitEmOf] at hcls
        · subst hE
          refine ⟨⟨by simp [wordEmOf], by simp [wordEmOf]; omega⟩, ?_⟩
          intro htr
          simp only [wordEmOf] at htr ⊢
          simp only [flushNow, htr, Bool.or_false, decide_eq_true_eq] at hf
          omega
      · simp only [List.mem_singleton] at he
        subst he; simp [bitEmOf] at hcls
    · simp at he
  · simp at he
  · simp at he

lemma runEdges_word_ems (cfg : Config) (hw : 0 < cfg.wordlen) :
    ∀ (evs : List Edge) (st : State), st.nibblecount < cfg.wordlen →
      ((runEdges cfg st evs).1.nibblecount < cfg.wordlen ∧
       ∀ e ∈ (runEdges cfg st evs).2, e.cls = 1 →
         (1 ≤ e.nbits ∧ e.nbits ≤ cfg.wordlen) ∧
         (e.trunc = false → e.nbits = cfg.wordlen)) := by
  intro evs
  induction evs with
  | nil => intro st h; exact ⟨h, by simp [runEdges]⟩
  | cons ev rest ih =>
      intro st h
      have h1 := processEdge_nc_lt cfg st ev hw h
      obtain ⟨h2, h3⟩ := ih (processEdge cfg st ev).1 h1
      refine ⟨by simpa [runEdges] using h2, ?_⟩
      intro e he hcls
      simp only [runEdges, List.mem_append] at he
      rcases he with hm | hm
      · exact mem_processEdge_word cfg st ev h e hm hcls
      · exact h3 e hm hcls

lemma mem_flushEms_word (cfg : Config) (st : State)
    (h : st.nibblecount < cfg.wordlen) :
    ∀ e ∈ flushEms cfg st, e.cls = 1 → 1 ≤ e.nbits ∧ e.nbits ≤ cfg.wordlen := by
  unfold flushEms
  split_ifs with h0 <;> intro e he hcls
  · simp only [List.mem_cons, List.mem_singleton, List.not_mem_nil, or_false] at he
    rcases he with hE | hE <;> subst hE
    · simp at hcls
    · simp only
      omega
  · simp at he

/-- Claim C7 (corrected): with a positive configured word width, every
word annotation flushed mid-stream holds exactly wordlen folded bits
unless the flush was forced by a truncation event, in which case it
holds between 1 and wordlen bits; but a word annotation emitted by the
end-of-stream finalizer also holds between 1 and wordlen bits without
any truncation event, so "exactly wordlen unless truncated" does not
hold of every emitted word annotation. -/
theorem word_em_bit_counts (cfg : Config) (evs : List Edge) (hw : 0 < cfg.wordlen) :
    (∀ e ∈ (runEdges cfg initState evs).2, e.cls = 1 →
        (1 ≤ e.nbits ∧ e.nbits ≤ cfg.wordlen) ∧
        (e.trunc = false → e.nbits = cfg.wordlen))
    ∧ (∀ e ∈ flushEms cfg (stateAfter cfg evs), e.cls = 1 →
        1 ≤ e.nbits ∧ e.nbits ≤ cfg.wordlen) := by
  obtain ⟨hinv, hmem⟩ := runEdges_word_ems cfg hw evs initState (by simpa [initState] using hw)
  exact ⟨hmem, mem_flushEms_word cfg _ hinv⟩

/-- Claim C7 counterexample: the run with word width 8 and active edges
at samples 10, 20, 30 ends with three bits pending; its final word
annotation carries nbits = 3 ≠ 8 although no truncation forced the
flush, refuting "every emitted word annotation contains exactly
word_width folded bits except when forced early by a truncation
event". -/
theorem word_em_final_flush_counterexample :
    ((decodeEms ⟨true, 8, false⟩ [⟨10, 1, 0⟩, ⟨20, 1, 0⟩, ⟨30, 1, 0⟩]).any
      (fun e => e.cls == 1 && e.trunc == false && e.nbits != 8)) = true := by
  decide

/-- Claim C7 witness: the mid-stream word annotation of the width-2 run
over edges 10, 20, 30 (not truncation-forced) holds exactly 2 bits. -/
theorem word_em_bit_counts_witness :
    (⟨10, 30, OutputKind.annOut, 1, 0, 2, false⟩ : Emission).nbits = 2 :=
  ((word_em_bit_counts ⟨true, 2, false⟩ [⟨10, 1, 0⟩, ⟨20, 1, 0⟩, ⟨30, 1, 0⟩]
      (by decide)).1
    ⟨10, 30, OutputKind.annOut, 1, 0, 2, false⟩ (by decide) (by decide)).2 (by decide)

-- Bound on the word accumulator for C10.

lemma foldBit_lt (b : Bool) (nib c bit : Nat)
    (h1 : nib < 2 ^ c) (h2 : bit ≤ 1) :
    foldBit b nib c bit < 2 ^ (c + 1) := by
  have hp : 0 < (2 : Nat) ^ c := Nat.pow_pos (by norm_num)
  have hs : (2 : Nat) ^ (c + 1) = 2 ^ c * 2 := by rw [pow_succ]
  cases b with
  | true =>
      show (nib <<< 1) ||| bit < 2 ^ (c + 1)
      apply Nat.or_lt_two_pow
      · rw [Nat.shiftLeft_eq, pow_one, hs]
        generalize 2 ^ c = P at h1 ⊢
        omega
      · rw [hs]
        generalize 2 ^ c = P at hp ⊢
        omega
  | false =>
      show nib ||| (bit <<< c) < 2 ^ (c + 1)
      apply Nat.or_lt_two_pow
      · rw [hs]
        generalize 2 ^ c = P at h1 ⊢
        omega
      · rw [Nat.shiftLeft_eq, hs]
        have hb : bit * 2 ^ c ≤ 1 * 2 ^ c := Nat.mul_le_mul_right _ h2
        generalize 2 ^ c = P at hb hp ⊢
        omega

lemma processEdge_bits_wf (cfg : Config) (st : State) (ev : Edge)
    (hd : ev.sda ≤ 1) (h1 : st.nibble < 2 ^ st.nibblecount) (h2 : st.lastbit ≤ 1) :
    ((processEdge cfg st ev).1).nibble < 2 ^ ((processEdge cfg st ev).1).nibblecount
    ∧ ((processEdge cfg st ev).1).lastbit ≤ 1 := by
  unfold processEdge
  split_ifs with ha hl
  · rw [activeStep_fst]
    unfold startBit
    dsimp only
    refine ⟨?_, hd⟩
    split_ifs with hp
    · rw [finalizePending_nibble, finalizePending_nibblecount]
      split_ifs with hf
      · norm_num
      · exact foldBit_lt cfg.lsbfirst st.nibble st.nibblecount st.lastbit h1 h2
    · exact h1
  · exact ⟨h1, h2⟩
  · exact ⟨h1, h2⟩

lemma runEdges_bits_wf (cfg : Config) :
    ∀ (evs : List Edge) (st : State), (∀ e ∈ evs, e.sda ≤ 1) →
      st.nibble < 2 ^ st.nibblecount → st.lastbit ≤ 1 →
      ((runEdges cfg st evs).1.nibble < 2 ^ (runEdges cfg st evs).1.nibblecount
       ∧ (runEdges cfg st evs).1.lastbit ≤ 1) := by
  intro evs
  induction evs with
  | nil => intro st _ h1 h2; exact ⟨h1, h2⟩
  | cons ev rest ih =>
      intro st hall h1 h2
      obtain ⟨g1, g2⟩ := processEdge_bits_wf cfg st ev (hall ev (by simp)) h1 h2
      have hrest := ih (processEdge cfg st ev).1 (fun e he => hall e (by simp [he])) g1 g2
      simpa [runEdges] using hrest

/-- Claim C10: along any run whose data levels are bits (0 or 1), the
in-progress word accumulator satisfies nibble < 2 ^ nibblecount at every
point, and folding the pending bit once more (as both the mid-stream and
the finalizer paths do) stays below 2 ^ (nibblecount + 1) under either
bit-order rule. -/
theorem word_value_bound (cfg : Config) (evs : List Edge)
    (h : ∀ e ∈ evs, e.sda ≤ 1) (n : Nat) :
    (stateAfter cfg (evs.take n)).nibble
        < 2 ^ (stateAfter cfg (evs.take n)).nibblecount
    ∧ foldBit cfg.lsbfirst (stateAfter cfg (evs.take n)).nibble
        (stateAfter cfg (evs.take n)).nibblecount
        (stateAfter cfg (evs.take n)).lastbit
      < 2 ^ ((stateAfter cfg (evs.take n)).nibblecount + 1) := by
  have hw := runEdges_bits_wf cfg (evs.take n) initState
    (fun e he => h e (List.mem_of_mem_take he)) (by decide) (by decide)
  exact ⟨hw.1, foldBit_lt _ _ _ _ hw.1 hw.2⟩

/-- Claim C10 witness: after the single active edge (5, clk 1, data 1)
the accumulator bound holds. -/
theorem word_value_bound_witness :
    (stateAfter ⟨true, 8, false⟩ (([⟨5, 1, 1⟩] : List Edge).take 1)).nibble
      < 2 ^ (stateAfter ⟨true, 8, false⟩ (([⟨5, 1, 1⟩] : List Edge).take 1)).nibblecount :=
  (word_value_bound ⟨true, 8, false⟩ [⟨5, 1, 1⟩] (by decide) 1).1

-- Machinery for C9.  Bit annotations are emitted one per folded bit, in
-- fold order, and a word annotation carries (ghost field nbits) the
-- number of bits folded into it.  "Every folded bit's annotation is
-- emitted strictly before the word annotation of its word" is therefore
-- captured by: on every prefix of the trace, the total nbits of the word
-- annotations seen so far never exceeds the number of bit annotations
-- seen so far.  TraceOK c0 c1 l states this for a trace fragment l
-- entered with c0 bits already folded but not yet flushed and left with
-- c1 such bits.

def TraceOK (c0 c1 : Nat) (l : List Emission) : Prop :=
  (∀ n, wordBits (l.take n) ≤ c0 + bitCnt (l.take n))
  ∧ bitCnt l + c0 = wordBits l + c1

@[simp] lemma bitCnt_nil : bitCnt [] = 0 := rfl

@[simp] lemma wordBits_nil : wordBits [] = 0 := rfl

lemma bitCnt_append (l1 l2 : List Emission) :
    bitCnt (l1 ++ l2) = bitCnt l1 + bitCnt l2 := by
  simp [bitCnt, List.countP_append]

lemma wordBits_append (l1 l2 : List Emission) :
    wordBits (l1 ++ l2) = wordBits l1 + wordBits l2 := by
  simp [wordBits]

lemma TraceOK_append {c0 c1 c2 : Nat} {l1 l2 : List Emission}
    (h1 : TraceOK c0 c1 l1) (h2 : TraceOK c1 c2 l2) :
    TraceOK c0 c2 (l1 ++ l2) := by
  obtain ⟨hp1, hb1⟩ := h1
  obtain ⟨hp2, hb2⟩ := h2
  constructor
  · intro n
    rw [List.take_append_eq_append_take, wordBits_append, bitCnt_append]
    by_cases hle : n ≤ l1.length
    · have hz : n - l1.length = 0 := by omega
      rw [hz]
      have := hp1 n
      simpa using this
    · have hfull : l1.take n = l1 := List.take_of_length_le (by omega)
      rw [hfull]
      have := hp2 (n - l1.length)
      omega
  · rw [bitCnt_append, wordBits_append]
    omega

lemma processEdge_TraceOK (cfg : Config) (st : State) (ev : Edge) :
    TraceOK st.nibblecount ((processEdge cfg st ev).1).nibblecount
      (processEdge cfg st ev).2 := by
  unfold processEdge
  split_ifs with h1 h2
  · rw [activeStep_fst, activeStep_snd]
    unfold startBit
    dsimp only
    split_ifs with hp
    · rw [finalizePending_snd, finalizePending_nibblecount]
      split_ifs with hf
      · constructor
        · intro n
          rcases n with _ | _ | k <;>
            simp [bitCnt, wordBits, bitEmOf, wordEmOf, List.take_succ_cons]
        · simp [bitCnt, wordBits, bitEmOf, wordEmOf]
          omega
      · constructor
        · intro n
          rcases n with _ | k <;>
            simp [bitCnt, wordBits, bitEmOf, List.take_succ_cons]
        · simp [bitCnt, wordBits, bitEmOf]
          omega
    · exact ⟨fun n => by simp, by simp⟩
  · exact ⟨fun n => by simp, by simp⟩
  · exact ⟨fun n => by simp, by simp⟩

lemma flushEms_TraceOK (cfg : Config) (st : State) :
    TraceOK st.nibblecount
      (if 0 < st.nibblecount then 0 else st.nibblecount) (flushEms cfg st) := by
  unfold flushEms
  split_ifs with h0
  · constructor
    · intro n
      rcases n with _ | _ | k <;>
        simp [bitCnt, wordBits, List.take_succ_cons]
    · simp [bitCnt, wordBits]
      omega
  · exact ⟨fun n => by simp, by simp⟩

lemma runEdges_TraceOK (cfg : Config) :
    ∀ (evs : List Edge) (st : State),
      TraceOK st.nibblecount ((runEdges cfg st evs).1).nibblecount
        (runEdges cfg st evs).2 := by
  intro evs
  induction evs with
  | nil => intro st; exact ⟨fun n => by simp [runEdges], by simp [runEdges]⟩
  | cons ev rest ih =>
      intro st
      have h12 := TraceOK_append (processEdge_TraceOK cfg st ev)
        (ih (processEdge cfg st ev).1)
      simpa [runEdges] using h12

/-- Claim C9: on every prefix of a complete run's emission trace, the
total number of bits folded into the word annotations emitted so far
(ghost nbits) never exceeds the number of bit annotations emitted so
far.  Since the decoder emits exactly one bit annotation per folded bit,
in fold order, and each word annotation's bits are the bits folded since
the previous flush, this states that the bit annotation of every folded
bit appears strictly before the word annotation of the word containing
it — in the mid-stream flush path and the end-of-stream finalizer path
alike. -/
theorem bit_em_before_word_em (cfg : Config) (evs : List Edge) (n : Nat) :
    wordBits ((decodeEms cfg evs).take n) ≤ bitCnt ((decodeEms cfg evs).take n) := by
  have h1 := runEdges_TraceOK cfg evs initState
  have h2 : TraceOK ((runEdges cfg initState evs).1).nibblecount
      (if 0 < ((runEdges cfg initState evs).1).nibblecount then 0
       else ((runEdges cfg initState evs).1).nibblecount)
      (flushEms cfg (stateAfter cfg evs)) := flushEms_TraceOK cfg (stateAfter cfg evs)
  have h3 := TraceOK_append h1 h2
  have h4 := h3.1 n
  simpa [decodeEms, initState] using h4

/-- Claim C8 witness: the first bit annotation of the two-edge run at
samples 10 and 20 is on the annotation output. -/
theorem only_ann_output_witness :
    (⟨10, 20, OutputKind.annOut, 0, 0, 0, false⟩ : Emission).out = OutputKind.annOut :=
  only_ann_output ⟨true, 8, false⟩ [⟨10, 1, 0⟩, ⟨20, 1, 0⟩]
    ⟨10, 20, OutputKind.annOut, 0, 0, 0, false⟩ (by decide)

end SyncSerial
